import Mathlib

/-!
Shallow embedding of `src/graph.rs` (jhecking/algorithms-on-graphs-rust).

The Rust module is an undirected graph: a `HashSet` of vertices and a `Vec`
of edges.  `adjacencies` builds a `HashMap` from every vertex to its set of
neighbours, panicking (`unwrap`) when an edge endpoint is not a declared
vertex.  `explore` is a recursive depth-first visit; `depth_first_search`
scans the vertex set and collects one discovery list per unvisited
vertex; `connected_components` and `is_reachable` are the public queries.

Modelling choices:
  * `Vertex` is `Nat`.  The only `u32` arithmetic the source performs on
    these values is the `v + 1` in `load`'s `(1..v+1)`, modelled with an
    explicit `% 2^32` (the release-build wrap on overflow; a debug build
    panics at the same input, and either way the collected range is not
    `[1, v]` at `v = u32::MAX`).  Everywhere else vertex values are only
    compared.
  * The `HashSet` of vertices is a `List Vertex` giving the (unspecified)
    iteration order; membership is what matters.  The visited `HashSet` is a
    `Finset Vertex`.  Neighbour `HashSet`s are duplicate-free `List`s in
    insertion order.
  * A panic (`unwrap` failure) is `none`; recursion is driven by fuel, with
    fuel exhaustion also `none`.  `Graph.fuel` is one more than the vertex
    count, which is proved sufficient (`visit` only recurses on unvisited
    declared vertices), so `none` from a query means exactly the Rust panic.
-/

namespace GraphRs

abbrev Vertex := Nat

/-- `pub struct Graph { vertices: HashSet<Vertex>, edges: Vec<(Vertex, Vertex)> }`. -/
structure Graph where
  vertices : List Vertex
  edges : List (Vertex × Vertex)
deriving DecidableEq

/-- `type Adjacencies = HashMap<Vertex, HashSet<Vertex>>`: a partial map from
vertices to neighbour lists; `none` means the key is absent. -/
abbrev Adjacencies := Vertex → Option (List Vertex)

/-- `HashSet::insert` on a neighbour set: no duplicates, insertion order kept. -/
def insertSet (w : Vertex) (ns : List Vertex) : List Vertex :=
  if w ∈ ns then ns else ns ++ [w]

/-- Point update of the adjacency map (`HashMap` entry overwrite). -/
def setNeighbors (adj : Adjacencies) (k : Vertex) (ns : List Vertex) : Adjacencies :=
  fun x => if x = k then some ns else adj x

/-- The first loop of `adjacencies`: `adj.insert(*vertex, HashSet::new())`
for every vertex. -/
def emptyAdj (vs : List Vertex) : Adjacencies :=
  fun v => if v ∈ vs then some [] else none

/-- The second loop of `adjacencies`:
`adj.get_mut(&edge.0).unwrap().insert(edge.1); adj.get_mut(&edge.1).unwrap().insert(edge.0);`
for each edge in order; a failing `unwrap` is `none`. -/
def addEdges : List (Vertex × Vertex) → Adjacencies → Option Adjacencies
  | [], adj => some adj
  | e :: rest, adj =>
    match adj e.1 with
    | none => none
    | some ns1 =>
      match setNeighbors adj e.1 (insertSet e.2 ns1) e.2 with
      | none => none
      | some ns2 =>
        addEdges rest
          (setNeighbors (setNeighbors adj e.1 (insertSet e.2 ns1)) e.2 (insertSet e.1 ns2))

/-- `fn adjacencies(&self) -> Adjacencies`. -/
def Graph.adjacencies (g : Graph) : Option Adjacencies :=
  addEdges g.edges (emptyAdj g.vertices)

/-- The recursive inner `fn visit` of `explore`: mark `v` visited, push it on
the component list, then recurse into each not-yet-visited neighbour.  The
first argument after `adj` is fuel bounding the recursion depth; it is
decremented once per nested `visit` and `none` on exhaustion. -/
def visit (adj : Adjacencies) : Nat → Vertex → Finset Vertex × List Vertex →
    Option (Finset Vertex × List Vertex)
  | 0, _, _ => none
  | fuel + 1, v, (visited, component) =>
    let st := (insert v visited, component ++ [v])
    match adj v with
    | none => some st
    | some adjacent =>
      adjacent.foldlM (fun st w => if w ∈ st.1 then some st else visit adj fuel w st) st

/-- The `for w in adjacent` loop body of `visit`, as a named function (the
`foldlM` in `visit` unfolds to this; see `visit_succ_some`). -/
def visitList (adj : Adjacencies) (fuel : Nat) (ws : List Vertex)
    (st : Finset Vertex × List Vertex) : Option (Finset Vertex × List Vertex) :=
  ws.foldlM (fun st w => if w ∈ st.1 then some st else visit adj fuel w st) st

/-- Fuel that suffices for every traversal of `g` (recursion depth is bounded
by the number of distinct visited vertices, all of them declared). -/
def Graph.fuel (g : Graph) : Nat :=
  g.vertices.length + 1

/-- `fn explore(&self, v, visited, component)`: derive the adjacency map
(propagating its panic), then run `visit`. -/
def Graph.explore (g : Graph) (v : Vertex) (st : Finset Vertex × List Vertex) :
    Option (Finset Vertex × List Vertex) :=
  match g.adjacencies with
  | none => none
  | some adj => visit adj g.fuel v st

/-- The `for v in &self.vertices` loop of `depth_first_search`: explore each
unvisited vertex, collecting one component per exploration. -/
def dfsGo (g : Graph) : List Vertex → Finset Vertex → List (List Vertex) →
    Option (List (List Vertex))
  | [], _, components => some components
  | v :: vs, visited, components =>
    if v ∈ visited then dfsGo g vs visited components
    else
      match g.explore v (visited, []) with
      | none => none
      | some (visited', component) => dfsGo g vs visited' (components ++ [component])

/-- `fn depth_first_search(&self) -> ConnectedComponents`. -/
def Graph.depth_first_search (g : Graph) : Option (List (List Vertex)) :=
  dfsGo g g.vertices ∅ []

/-- `pub fn connected_components(&self) -> ConnectedComponents`. -/
def Graph.connected_components (g : Graph) : Option (List (List Vertex)) :=
  g.depth_first_search

/-- `pub fn is_reachable(&self, v, w) -> bool`: explore from `v` with a fresh
visited set and test membership of `w`. -/
def Graph.is_reachable (g : Graph) (v w : Vertex) : Option Bool :=
  match g.explore v (∅, []) with
  | none => none
  | some (visited, _) => some (decide (w ∈ visited))

/-- The number of `u32` values: `v + 1` in `load` is computed modulo this. -/
def u32size : Nat := 4294967296

/-- `pub fn load<T: TupleReader>(reader) -> Graph`.  The tuple source is the
opaque external collaborator; it is modelled as a stream of `u32` pairs
(values below `u32size`), read at position 0 for the `(v, e)` header and at
positions 1..e for the edges.  `(1..v+1).collect()` does `u32` arithmetic:
`v + 1` wraps modulo 2^32 on overflow (release builds; a debug build panics
at the same input), and the half-open range `1..end` collects
`[1, ..., end - 1]`, i.e. `List.range' 1 (end - 1)`.  For `v < u32::MAX`
this is `[1, ..., v]`; at `v = u32::MAX` the range is empty.  The edge loop
`for _ in 0..e` and the edge tuples involve no arithmetic. -/
def load (reader : Nat → Nat × Nat) : Graph :=
  { vertices := List.range' 1 (((reader 0).1 + 1) % u32size - 1)
    edges := (List.range (reader 0).2).map (fun i => reader (i + 1)) }

/-- Undirected edge-adjacency: some stored edge joins `u` and `w`. -/
def Graph.Adj (g : Graph) (u w : Vertex) : Prop :=
  (u, w) ∈ g.edges ∨ (w, u) ∈ g.edges

/-- Reachability along undirected edges. -/
def Graph.Reach (g : Graph) (v w : Vertex) : Prop :=
  Relation.ReflTransGen g.Adj v w

/-- Well-formedness: every edge endpoint is a declared vertex (the closed
inputs the Rust code assumes). -/
def Graph.wf (g : Graph) : Prop :=
  ∀ e ∈ g.edges, e.1 ∈ g.vertices ∧ e.2 ∈ g.vertices

instance (g : Graph) : Decidable g.wf := by
  unfold Graph.wf; infer_instance

/-- What one successful `visit` call does: it appends to the component list a
duplicate-free block of vertices not previously visited, adds exactly that
block to the visited set, the block contains the origin and only vertices
reachable from it, and every neighbour of a block vertex ends up visited. -/
def VisitOut (g : Graph) (v : Vertex) (V : Finset Vertex) (C : List Vertex)
    (V' : Finset Vertex) (C' : List Vertex) : Prop :=
  ∃ Δ, C' = C ++ Δ ∧ Δ.Nodup ∧ (∀ u ∈ Δ, u ∉ V) ∧ V' = V ∪ Δ.toFinset ∧
    v ∈ Δ ∧ (∀ u ∈ Δ, g.Reach v u) ∧ (∀ u ∈ Δ, ∀ w, g.Adj u w → w ∈ V')

/-- What one successful neighbour-loop (`for w in adjacent`) does: like
`VisitOut`, except every loop vertex ends up visited and each block vertex is
reachable from some loop vertex. -/
def VisitListOut (g : Graph) (ws : List Vertex) (V : Finset Vertex) (C : List Vertex)
    (V' : Finset Vertex) (C' : List Vertex) : Prop :=
  ∃ Δ, C' = C ++ Δ ∧ Δ.Nodup ∧ (∀ u ∈ Δ, u ∉ V) ∧ V' = V ∪ Δ.toFinset ∧
    (∀ w ∈ ws, w ∈ V') ∧ (∀ u ∈ Δ, ∃ r ∈ ws, g.Reach r u) ∧
    (∀ u ∈ Δ, ∀ w, g.Adj u w → w ∈ V')

/-! ### Adjacency-map lemmas -/

lemma mem_insertSet {w x : Vertex} {ns : List Vertex} :
    w ∈ insertSet x ns ↔ w = x ∨ w ∈ ns := by
  unfold insertSet
  by_cases h : x ∈ ns
  · rw [if_pos h]
    constructor
    · exact Or.inr
    · rintro (rfl | hw)
      · exact h
      · exact hw
  · rw [if_neg h]
    simp [or_comm]

lemma nodup_insertSet {x : Vertex} {ns : List Vertex} (h : ns.Nodup) :
    (insertSet x ns).Nodup := by
  unfold insertSet
  by_cases hx : x ∈ ns
  · rw [if_pos hx]
    exact h
  · rw [if_neg hx]
    simp [List.nodup_append, h, hx]

lemma emptyAdj_isSome (vs : List Vertex) (u : Vertex) :
    (emptyAdj vs u).isSome ↔ u ∈ vs := by
  unfold emptyAdj
  split <;> simp_all

lemma emptyAdj_mem {vs : List Vertex} {u : Vertex} {ns : List Vertex} {w : Vertex}
    (h : emptyAdj vs u = some ns) : w ∈ ns ↔ False := by
  unfold emptyAdj at h
  split at h <;> simp_all

lemma addEdges_domain :
    ∀ (es : List (Vertex × Vertex)) (adj adj' : Adjacencies) (S : Vertex → Prop),
      (∀ u, (adj u).isSome ↔ S u) → addEdges es adj = some adj' →
      ∀ u, (adj' u).isSome ↔ S u := by
  intro es
  induction es with
  | nil =>
    intro adj adj' S hdom h u
    cases h
    exact hdom u
  | cons e rest ih =>
    intro adj adj' S hdom h u
    unfold addEdges at h
    cases h1 : adj e.1 with
    | none => rw [h1] at h; cases h
    | some ns1 =>
      rw [h1] at h
      simp only at h
      cases h2 : setNeighbors adj e.1 (insertSet e.2 ns1) e.2 with
      | none => rw [h2] at h; cases h
      | some ns2 =>
        rw [h2] at h
        refine ih _ adj' S ?_ h u
        intro x
        have hS1 : S e.1 := (hdom e.1).mp (by simp [h1])
        have hS2 : S e.2 := by
          by_cases hx : e.2 = e.1
          · rw [hx]; exact hS1
          · have : adj e.2 = some ns2 := by
              simpa [setNeighbors, hx] using h2
            exact (hdom e.2).mp (by simp [this])
        by_cases hx2 : x = e.2
        · subst hx2
          simp [setNeighbors, hS2]
        · by_cases hx1 : x = e.1
          · subst hx1
            simp [setNeighbors, hx2, hS1]
          · simpa [setNeighbors, hx1, hx2] using hdom x

lemma addEdges_mem :
    ∀ (es : List (Vertex × Vertex)) (adj adj' : Adjacencies) (R : Vertex → Vertex → Prop),
      (∀ u ns w, adj u = some ns → (w ∈ ns ↔ R u w)) → addEdges es adj = some adj' →
      ∀ u ns w, adj' u = some ns →
        (w ∈ ns ↔ (R u w ∨ (u, w) ∈ es ∨ (w, u) ∈ es)) := by
  intro es
  induction es with
  | nil =>
    intro adj adj' R hmem h u ns w hu
    cases h
    simpa using hmem u ns w hu
  | cons e rest ih =>
    intro adj adj' R hmem h u ns w hu
    unfold addEdges at h
    cases h1 : adj e.1 with
    | none => rw [h1] at h; cases h
    | some ns1 =>
      rw [h1] at h
      simp only at h
      cases h2 : setNeighbors adj e.1 (insertSet e.2 ns1) e.2 with
      | none => rw [h2] at h; cases h
      | some ns2 =>
        rw [h2] at h
        have key := ih _ adj'
          (fun u w => R u w ∨ (u = e.1 ∧ w = e.2) ∨ (u = e.2 ∧ w = e.1)) ?_ h u ns w hu
        · rw [key]
          have he : ∀ a b : Vertex, (a, b) ∈ e :: rest ↔ ((a = e.1 ∧ b = e.2) ∨ (a, b) ∈ rest) := by
            intro a b
            simp [Prod.ext_iff]
          rw [he, he]
          tauto
        · intro x nsx y hx
          by_cases hx2 : x = e.2
          · subst hx2
            have hnsx : insertSet e.1 ns2 = nsx := by
              simpa [setNeighbors] using hx
            subst hnsx
            by_cases hq : e.2 = e.1
            · have hns2 : insertSet e.2 ns1 = ns2 := by
                simpa [setNeighbors, hq] using h2
              subst hns2
              rw [mem_insertSet, mem_insertSet, hmem e.1 ns1 y h1]
              rw [hq]
              simp
              tauto
            · have hns2 : adj e.2 = some ns2 := by
                simpa [setNeighbors, hq] using h2
              rw [mem_insertSet, hmem e.2 ns2 y hns2]
              simp [hq]
              tauto
          · by_cases hx1 : x = e.1
            · subst hx1
              have hnsx : insertSet e.2 ns1 = nsx := by
                simpa [setNeighbors, hx2] using hx
              subst hnsx
              rw [mem_insertSet, hmem e.1 ns1 y h1]
              simp [hx2]
              tauto
            · have hax : adj x = some nsx := by
                simpa [setNeighbors, hx1, hx2] using hx
              rw [hmem x nsx y hax]
              simp [hx1, hx2]

lemma addEdges_isSome :
    ∀ (es : List (Vertex × Vertex)) (adj : Adjacencies) (S : Vertex → Prop),
      (∀ u, (adj u).isSome ↔ S u) →
      ((addEdges es adj).isSome ↔ ∀ e ∈ es, S e.1 ∧ S e.2) := by
  intro es
  induction es with
  | nil => intro adj S hdom; simp [addEdges]
  | cons e rest ih =>
    intro adj S hdom
    unfold addEdges
    cases h1 : adj e.1 with
    | none =>
      have : ¬ S e.1 := by
        rw [← hdom e.1, h1]
        simp
      simp [this]
    | some ns1 =>
      have hS1 : S e.1 := (hdom e.1).mp (by simp [h1])
      simp only
      cases h2 : setNeighbors adj e.1 (insertSet e.2 ns1) e.2 with
      | none =>
        have hx : ¬ e.2 = e.1 := by
          intro hq
          rw [setNeighbors] at h2
          rw [if_pos hq] at h2
          cases h2
        have h2' : adj e.2 = none := by
          simpa [setNeighbors, hx] using h2
        have hS2 : ¬ S e.2 := by
          rw [← hdom e.2, h2']
          simp
        simp [hS2]
      | some ns2 =>
        have hS2 : S e.2 := by
          by_cases hx : e.2 = e.1
          · rw [hx]; exact hS1
          · have : adj e.2 = some ns2 := by
              simpa [setNeighbors, hx] using h2
            exact (hdom e.2).mp (by simp [this])
        have hdom2 : ∀ u,
            ((setNeighbors (setNeighbors adj e.1 (insertSet e.2 ns1)) e.2
              (insertSet e.1 ns2)) u).isSome ↔ S u := by
          intro x
          by_cases hx2 : x = e.2
          · subst hx2
            simp [setNeighbors, hS2]
          · by_cases hx1 : x = e.1
            · subst hx1
              rw [setNeighbors]
              rw [if_neg hx2]
              rw [setNeighbors]
              simp [hS1]
            · simpa [setNeighbors, hx1, hx2] using hdom x
        rw [ih _ S hdom2]
        simp [hS1, hS2]

lemma adjacencies_isSome_iff (g : Graph) : (g.adjacencies).isSome ↔ g.wf := by
  unfold Graph.adjacencies Graph.wf
  exact addEdges_isSome g.edges (emptyAdj g.vertices) _ (emptyAdj_isSome g.vertices)

lemma adjacencies_eq_none_of_not_wf {g : Graph} (h : ¬ g.wf) : g.adjacencies = none := by
  have := (adjacencies_isSome_iff g).not.mpr h
  cases hA : g.adjacencies with
  | none => rfl
  | some adj => rw [hA] at this; simp at this

lemma adjacencies_wf {g : Graph} {adj : Adjacencies} (h : g.adjacencies = some adj) : g.wf :=
  (adjacencies_isSome_iff g).mp (by simp [h])

lemma adjacencies_domain {g : Graph} {adj : Adjacencies} (h : g.adjacencies = some adj)
    (u : Vertex) : (adj u).isSome ↔ u ∈ g.vertices :=
  addEdges_domain g.edges _ adj _ (emptyAdj_isSome g.vertices) h u

lemma adjacencies_mem {g : Graph} {adj : Adjacencies} (h : g.adjacencies = some adj)
    {u : Vertex} {ns : List Vertex} (hu : adj u = some ns) (w : Vertex) :
    w ∈ ns ↔ g.Adj u w := by
  have := addEdges_mem g.edges _ adj (fun _ _ => False)
    (fun u ns w h => by rw [emptyAdj_mem h]) h u ns w hu
  rw [this]
  simp [Graph.Adj]

lemma adjacencies_none_not_adj {g : Graph} {adj : Adjacencies} (h : g.adjacencies = some adj)
    {u : Vertex} (hu : adj u = none) (w : Vertex) : ¬ g.Adj u w := by
  intro hadj
  have hwf := adjacencies_wf h
  have humem : u ∉ g.vertices := by
    rw [← adjacencies_domain h u, hu]
    simp
  rcases hadj with he | he
  · exact humem (hwf _ he).1
  · exact humem (hwf _ he).2

lemma Graph.Adj.symm {g : Graph} {u w : Vertex} (h : g.Adj u w) : g.Adj w u :=
  Or.symm h

lemma reach_symm {g : Graph} {v w : Vertex} (h : g.Reach v w) : g.Reach w v :=
  Relation.ReflTransGen.symmetric (fun _ _ h => Graph.Adj.symm h) h

lemma reach_mem {g : Graph} (hwf : g.wf) {v u : Vertex} (hv : v ∈ g.vertices)
    (h : g.Reach v u) : u ∈ g.vertices := by
  induction h with
  | refl => exact hv
  | tail _ hadj ih =>
    rcases hadj with he | he
    · exact (hwf _ he).2
    · exact (hwf _ he).1

lemma reach_iff_eq_of_isolated {g : Graph} {v : Vertex} (h : ∀ w, ¬ g.Adj v w)
    (w : Vertex) : g.Reach v w ↔ w = v := by
  constructor
  · intro hr
    induction hr with
    | refl => rfl
    | tail hp hadj ih =>
      subst ih
      exact absurd hadj (h _)
  · rintro rfl
    exact Relation.ReflTransGen.refl

example : (Graph.mk [1, 2, 3, 4] [(1, 2), (2, 3)]).connected_components =
    some [[1, 2, 3], [4]] := by decide

example : (Graph.mk [1, 2, 3, 4] [(1, 2), (2, 3)]).is_reachable 1 4 = some false := by decide

example : (Graph.mk [1, 2] [(1, 2), (1, 2)]).connected_components = some [[1, 2]] := by decide

example : (Graph.mk [] [(1, 2)]).connected_components = some [] := by decide

example : (Graph.mk [3] [(1, 2)]).connected_components = none := by decide

example : (Graph.mk [3] [(1, 2)]).is_reachable 3 3 = none := by decide

/-! ### Equations for `visit` and `visitList` -/

lemma visit_zero (adj : Adjacencies) (v : Vertex) (st : Finset Vertex × List Vertex) :
    visit adj 0 v st = none := by
  obtain ⟨V, C⟩ := st
  rfl

lemma visit_succ_none {adj : Adjacencies} {v : Vertex} {fuel : Nat}
    (V : Finset Vertex) (C : List Vertex) (h : adj v = none) :
    visit adj (fuel + 1) v (V, C) = some (insert v V, C ++ [v]) := by
  simp [visit, h]

lemma visit_succ_some {adj : Adjacencies} {v : Vertex} {fuel : Nat} {ns : List Vertex}
    (V : Finset Vertex) (C : List Vertex) (h : adj v = some ns) :
    visit adj (fuel + 1) v (V, C) = visitList adj fuel ns (insert v V, C ++ [v]) := by
  simp [visit, visitList, h]

lemma visitList_nil (adj : Adjacencies) (fuel : Nat) (st : Finset Vertex × List Vertex) :
    visitList adj fuel [] st = some st := rfl

lemma visitList_cons (adj : Adjacencies) (fuel : Nat) (w : Vertex) (ws : List Vertex)
    (st : Finset Vertex × List Vertex) :
    visitList adj fuel (w :: ws) st =
      if w ∈ st.1 then visitList adj fuel ws st
      else
        match visit adj fuel w st with
        | none => none
        | some st' => visitList adj fuel ws st' := by
  unfold visitList
  rw [List.foldlM_cons]
  by_cases h : w ∈ st.1
  · simp [h]
  · simp only [h, if_false]
    cases visit adj fuel w st <;> simp

/-! ### What a successful traversal produces -/

lemma visitList_out_of_visit {g : Graph} {adj : Adjacencies} (fuel : Nat)
    (hP : ∀ v V C V' C', v ∉ V → visit adj fuel v (V, C) = some (V', C') →
      VisitOut g v V C V' C') :
    ∀ ws V C V' C', visitList adj fuel ws (V, C) = some (V', C') →
      VisitListOut g ws V C V' C' := by
  intro ws
  induction ws with
  | nil =>
    intro V C V' C' h
    rw [visitList_nil] at h
    cases h
    exact ⟨[], by simp, by simp, by simp, by simp, by simp, by simp, by simp⟩
  | cons w ws ih =>
    intro V C V' C' h
    rw [visitList_cons] at h
    by_cases hw : w ∈ V
    · rw [if_pos hw] at h
      obtain ⟨Δ, hC, hnd, hnotV, hV, hws, hreach, hcl⟩ := ih V C V' C' h
      refine ⟨Δ, hC, hnd, hnotV, hV, ?_, ?_, hcl⟩
      · intro x hx
        rcases List.mem_cons.mp hx with rfl | hx
        · rw [hV]
          exact Finset.mem_union_left _ hw
        · exact hws x hx
      · intro u hu
        obtain ⟨r, hr, hru⟩ := hreach u hu
        exact ⟨r, List.mem_cons_of_mem _ hr, hru⟩
    · rw [if_neg hw] at h
      cases hv : visit adj fuel w (V, C) with
      | none =>
        rw [hv] at h
        cases h
      | some st' =>
        rw [hv] at h
        obtain ⟨V₁, C₁⟩ := st'
        obtain ⟨Δ₁, hC₁, hnd₁, hnotV₁, hV₁, hwΔ, hreach₁, hcl₁⟩ := hP w V C V₁ C₁ hw hv
        obtain ⟨Δ₂, hC₂, hnd₂, hnotV₂, hV₂, hws₂, hreach₂, hcl₂⟩ := ih V₁ C₁ V' C' h
        have hV₁sub : V₁ ⊆ V' := by
          rw [hV₂]
          exact Finset.subset_union_left
        refine ⟨Δ₁ ++ Δ₂, ?_, ?_, ?_, ?_, ?_, ?_, ?_⟩
        · rw [hC₂, hC₁, List.append_assoc]
        · rw [List.nodup_append]
          refine ⟨hnd₁, hnd₂, ?_⟩
          intro a ha hb
          exact hnotV₂ a hb (by
            rw [hV₁]
            exact Finset.mem_union_right _ (List.mem_toFinset.mpr ha))
        · intro u hu
          rcases List.mem_append.mp hu with h1 | h2
          · exact hnotV₁ u h1
          · intro huV
            exact hnotV₂ u h2 (by
              rw [hV₁]
              exact Finset.mem_union_left _ huV)
        · rw [hV₂, hV₁]
          ext x
          simp [Finset.mem_union, or_assoc]
        · intro x hx
          rcases List.mem_cons.mp hx with rfl | hx
          · exact hV₁sub (by
              rw [hV₁]
              exact Finset.mem_union_right _ (List.mem_toFinset.mpr hwΔ))
          · exact hws₂ x hx
        · intro u hu
          rcases List.mem_append.mp hu with h1 | h2
          · exact ⟨w, List.mem_cons_self w ws, hreach₁ u h1⟩
          · obtain ⟨r, hr, hru⟩ := hreach₂ u h2
            exact ⟨r, List.mem_cons_of_mem _ hr, hru⟩
        · intro u hu x hx
          rcases List.mem_append.mp hu with h1 | h2
          · exact hV₁sub (hcl₁ u h1 x hx)
          · exact hcl₂ u h2 x hx

lemma visit_out_succ {g : Graph} {adj : Adjacencies} (hadj : g.adjacencies = some adj)
    (fuel : Nat)
    (hQ : ∀ ws V C V' C', visitList adj fuel ws (V, C) = some (V', C') →
      VisitListOut g ws V C V' C') :
    ∀ v V C V' C', v ∉ V → visit adj (fuel + 1) v (V, C) = some (V', C') →
      VisitOut g v V C V' C' := by
  intro v V C V' C' hv h
  cases ha : adj v with
  | none =>
    rw [visit_succ_none V C ha] at h
    cases h
    refine ⟨[v], by simp, by simp, by simpa using hv, ?_, by simp, ?_, ?_⟩
    · ext x
      simp [Finset.mem_insert, or_comm]
    · intro u hu
      rcases List.mem_singleton.mp hu with rfl
      exact Relation.ReflTransGen.refl
    · intro u hu x hx
      rcases List.mem_singleton.mp hu with rfl
      exact absurd hx (adjacencies_none_not_adj hadj ha x)
  | some ns =>
    rw [visit_succ_some V C ha] at h
    obtain ⟨Δ₁, hC, hnd, hnotV, hV, hws, hreach, hcl⟩ := hQ ns (insert v V) (C ++ [v]) V' C' h
    have hvΔ : v ∉ Δ₁ := fun hmem => hnotV v hmem (Finset.mem_insert_self v V)
    refine ⟨v :: Δ₁, ?_, ?_, ?_, ?_, List.mem_cons_self v Δ₁, ?_, ?_⟩
    · rw [hC, List.append_assoc]
      rfl
    · exact List.nodup_cons.mpr ⟨hvΔ, hnd⟩
    · intro u hu
      rcases List.mem_cons.mp hu with rfl | hu
      · exact hv
      · exact fun huV => hnotV u hu (Finset.mem_insert_of_mem huV)
    · rw [hV]
      ext x
      simp [Finset.mem_insert, Finset.mem_union]
    · intro u hu
      rcases List.mem_cons.mp hu with rfl | hu
      · exact Relation.ReflTransGen.refl
      · obtain ⟨r, hr, hru⟩ := hreach u hu
        exact Relation.ReflTransGen.head ((adjacencies_mem hadj ha r).mp hr) hru
    · intro u hu x hx
      rcases List.mem_cons.mp hu with rfl | hu
      · exact hws x ((adjacencies_mem hadj ha x).mpr hx)
      · exact hcl u hu x hx

lemma visit_out {g : Graph} {adj : Adjacencies} (hadj : g.adjacencies = some adj) :
    ∀ fuel v V C V' C', v ∉ V → visit adj fuel v (V, C) = some (V', C') →
      VisitOut g v V C V' C' := by
  intro fuel
  induction fuel with
  | zero =>
    intro v V C V' C' hv h
    rw [visit_zero] at h
    cases h
  | succ n ih => exact visit_out_succ hadj n (visitList_out_of_visit n ih)

/-! ### Fuel sufficiency: the traversal never exhausts `Graph.fuel` -/

lemma visitList_isSome_of_visit {g : Graph} {adj : Adjacencies}
    (hadj : g.adjacencies = some adj) (fuel : Nat)
    (hP : ∀ v V C, v ∉ V → v ∈ g.vertices.toFinset →
      (g.vertices.toFinset \ V).card < fuel → (visit adj fuel v (V, C)).isSome) :
    ∀ ws V C, (∀ w ∈ ws, w ∈ g.vertices.toFinset) →
      (g.vertices.toFinset \ V).card < fuel → (visitList adj fuel ws (V, C)).isSome := by
  intro ws
  induction ws with
  | nil =>
    intro V C _ _
    rw [visitList_nil]
    rfl
  | cons w ws ih =>
    intro V C hws hcard
    rw [visitList_cons]
    by_cases hw : w ∈ V
    · rw [if_pos hw]
      exact ih V C (fun x hx => hws x (List.mem_cons_of_mem _ hx)) hcard
    · rw [if_neg hw]
      have hS := hP w V C hw (hws w (List.mem_cons_self w ws)) hcard
      obtain ⟨⟨V₁, C₁⟩, hv⟩ := Option.isSome_iff_exists.mp hS
      rw [hv]
      obtain ⟨Δ₁, _, _, _, hV₁, _, _, _⟩ := visit_out hadj fuel w V C V₁ C₁ hw hv
      refine ih V₁ C₁ (fun x hx => hws x (List.mem_cons_of_mem _ hx)) ?_
      calc (g.vertices.toFinset \ V₁).card
      _ ≤ (g.vertices.toFinset \ V).card := by
          apply Finset.card_le_card
          apply Finset.sdiff_subset_sdiff (le_refl _)
          rw [hV₁]
          exact Finset.subset_union_left
      _ < fuel := hcard

lemma visit_isSome_succ {g : Graph} {adj : Adjacencies}
    (hadj : g.adjacencies = some adj) (fuel : Nat)
    (hQ : ∀ ws V C, (∀ w ∈ ws, w ∈ g.vertices.toFinset) →
      (g.vertices.toFinset \ V).card < fuel → (visitList adj fuel ws (V, C)).isSome) :
    ∀ v V C, v ∉ V → v ∈ g.vertices.toFinset →
      (g.vertices.toFinset \ V).card < fuel + 1 → (visit adj (fuel + 1) v (V, C)).isSome := by
  intro v V C hv hvK hcard
  cases ha : adj v with
  | none =>
    rw [visit_succ_none V C ha]
    rfl
  | some ns =>
    rw [visit_succ_some V C ha]
    have hwf := adjacencies_wf hadj
    refine hQ ns (insert v V) (C ++ [v]) ?_ ?_
    · intro w hw
      rcases (adjacencies_mem hadj ha w).mp hw with he | he
      · exact List.mem_toFinset.mpr (hwf _ he).2
      · exact List.mem_toFinset.mpr (hwf _ he).1
    · have hmem : v ∈ g.vertices.toFinset \ V := Finset.mem_sdiff.mpr ⟨hvK, hv⟩
      rw [Finset.sdiff_insert]
      rw [Finset.card_erase_of_mem hmem]
      have hpos : 0 < (g.vertices.toFinset \ V).card := Finset.card_pos.mpr ⟨v, hmem⟩
      omega

lemma visit_isSome {g : Graph} {adj : Adjacencies} (hadj : g.adjacencies = some adj) :
    ∀ fuel v V C, v ∉ V → v ∈ g.vertices.toFinset →
      (g.vertices.toFinset \ V).card < fuel → (visit adj fuel v (V, C)).isSome := by
  intro fuel
  induction fuel with
  | zero =>
    intro v V C _ _ hcard
    exact absurd hcard (Nat.not_lt_zero _)
  | succ n ih => exact visit_isSome_succ hadj n (visitList_isSome_of_visit hadj n ih)

/-! ### `explore`: totality and characterisation -/

lemma explore_isSome {g : Graph} (hwf : g.wf) (v : Vertex) (V : Finset Vertex)
    (C : List Vertex) (hv : v ∉ V) : (g.explore v (V, C)).isSome := by
  obtain ⟨adj, hadj⟩ := Option.isSome_iff_exists.mp ((adjacencies_isSome_iff g).mpr hwf)
  have hexp : g.explore v (V, C) = visit adj g.fuel v (V, C) := by
    unfold Graph.explore
    rw [hadj]
  rw [hexp]
  by_cases hvK : v ∈ g.vertices
  · refine visit_isSome hadj g.fuel v V C hv (List.mem_toFinset.mpr hvK) ?_
    unfold Graph.fuel
    have h1 : (g.vertices.toFinset \ V).card ≤ g.vertices.toFinset.card :=
      Finset.card_le_card (Finset.sdiff_subset)
    have h2 : g.vertices.toFinset.card ≤ g.vertices.length := g.vertices.toFinset_card_le
    omega
  · have ha : adj v = none := by
      cases hav : adj v with
      | none => rfl
      | some ns =>
        exact absurd ((adjacencies_domain hadj v).mp (by simp [hav])) hvK
    unfold Graph.fuel
    rw [visit_succ_none V C ha]
    rfl

lemma explore_out {g : Graph} {v : Vertex} {V V' : Finset Vertex} {C C' : List Vertex}
    (hv : v ∉ V) (h : g.explore v (V, C) = some (V', C')) : VisitOut g v V C V' C' := by
  unfold Graph.explore at h
  cases hadj : g.adjacencies with
  | none => rw [hadj] at h; cases h
  | some adj =>
    rw [hadj] at h
    exact visit_out hadj g.fuel v V C V' C' hv h

lemma explore_class {g : Graph} {v : Vertex} {V V' : Finset Vertex} {C C' : List Vertex}
    (hv : v ∉ V) (hclosed : ∀ u ∈ V, ∀ w, g.Adj u w → w ∈ V)
    (h : g.explore v (V, C) = some (V', C')) :
    ∃ Δ, C' = C ++ Δ ∧ Δ.Nodup ∧ (∀ u ∈ Δ, u ∉ V) ∧ V' = V ∪ Δ.toFinset ∧
      (∀ u, u ∈ Δ ↔ g.Reach v u) := by
  obtain ⟨Δ, hC, hnd, hnotV, hV, hvΔ, hreach, hcl⟩ := explore_out hv h
  have hVsub : ∀ x, g.Reach v x → x ∈ V' := by
    intro x hx
    induction hx with
    | refl =>
      rw [hV]
      exact Finset.mem_union_right _ (List.mem_toFinset.mpr hvΔ)
    | tail hp ha ih =>
      rw [hV] at ih
      rcases Finset.mem_union.mp ih with hb | hb
      · rw [hV]
        exact Finset.mem_union_left _ (hclosed _ hb _ ha)
      · exact hcl _ (List.mem_toFinset.mp hb) _ ha
  have hclosedV : ∀ a b, g.Reach a b → a ∈ V → b ∈ V := by
    intro a b hab ha
    induction hab with
    | refl => exact ha
    | tail hp hstep ih => exact hclosed _ ih _ hstep
  refine ⟨Δ, hC, hnd, hnotV, hV, fun u => ⟨hreach u, ?_⟩⟩
  intro hr
  have huV' := hVsub u hr
  have huV : u ∉ V := fun hu => hv (hclosedV u v (reach_symm hr) hu)
  rw [hV] at huV'
  rcases Finset.mem_union.mp huV' with h1 | h1
  · exact absurd h1 huV
  · exact List.mem_toFinset.mp h1

lemma is_reachable_spec {g : Graph} (hwf : g.wf) (v w : Vertex) :
    ∃ b, g.is_reachable v w = some b ∧ (b = true ↔ g.Reach v w) := by
  have hS := explore_isSome hwf v ∅ [] (Finset.not_mem_empty v)
  obtain ⟨⟨V', C'⟩, hE⟩ := Option.isSome_iff_exists.mp hS
  obtain ⟨Δ, hC, hnd, hnotV, hV, hiff⟩ :=
    explore_class (Finset.not_mem_empty v) (by simp) hE
  unfold Graph.is_reachable
  rw [hE]
  refine ⟨_, rfl, ?_⟩
  have hmem : w ∈ V' ↔ g.Reach v w := by
    rw [hV]
    simp [hiff w]
  simp [hmem]

/-! ### `depth_first_search`: totality and the component partition -/

lemma dfsGo_isSome {g : Graph} (hwf : g.wf) :
    ∀ vs V comps, (dfsGo g vs V comps).isSome := by
  intro vs
  induction vs with
  | nil =>
    intro V comps
    rfl
  | cons v vs ih =>
    intro V comps
    simp only [dfsGo]
    by_cases hv : v ∈ V
    · rw [if_pos hv]
      exact ih V comps
    · rw [if_neg hv]
      obtain ⟨⟨V₁, C₁⟩, hE⟩ := Option.isSome_iff_exists.mp (explore_isSome hwf v V [] hv)
      rw [hE]
      exact ih V₁ (comps ++ [C₁])

lemma dfsGo_spec {g : Graph} :
    ∀ vs V comps comps', (∀ u ∈ V, ∀ w, g.Adj u w → w ∈ V) →
      dfsGo g vs V comps = some comps' →
      ∃ (new : List (List Vertex)) (V'' : Finset Vertex),
        comps' = comps ++ new ∧
        (∀ c ∈ new, c.Nodup ∧ (∀ u ∈ c, u ∉ V) ∧
          ∃ r, r ∈ vs ∧ (∀ u, u ∈ c ↔ g.Reach r u)) ∧
        List.Pairwise (fun c₁ c₂ => ∀ x, x ∈ c₁ → x ∉ c₂) new ∧
        (∀ u, u ∈ V'' ↔ (u ∈ V ∨ ∃ c ∈ new, u ∈ c)) ∧
        (∀ x ∈ vs, x ∈ V'') ∧
        (∀ u ∈ V'', ∀ w, g.Adj u w → w ∈ V'') := by
  intro vs
  induction vs with
  | nil =>
    intro V comps comps' hcl h
    cases h
    refine ⟨[], V, by simp, by simp, by simp, ?_, by simp, hcl⟩
    intro u
    simp
  | cons v vs ih =>
    intro V comps comps' hcl h
    simp only [dfsGo] at h
    by_cases hv : v ∈ V
    · rw [if_pos hv] at h
      obtain ⟨new, V'', h1, h2, h3, h4, h5, h6⟩ := ih V comps comps' hcl h
      refine ⟨new, V'', h1, ?_, h3, h4, ?_, h6⟩
      · intro c hc
        obtain ⟨hnd, hnot, r, hr, hiff⟩ := h2 c hc
        exact ⟨hnd, hnot, r, List.mem_cons_of_mem _ hr, hiff⟩
      · intro x hx
        rcases List.mem_cons.mp hx with rfl | hx
        · exact (h4 x).mpr (Or.inl hv)
        · exact h5 x hx
    · rw [if_neg hv] at h
      cases hE : g.explore v (V, []) with
      | none =>
        rw [hE] at h
        cases h
      | some st =>
        rw [hE] at h
        obtain ⟨V₁, Δc⟩ := st
        obtain ⟨Δ, hC, hnd, hnotV, hV₁, hiff⟩ := explore_class hv hcl hE
        have hΔc : Δc = Δ := by simpa using hC
        subst hΔc
        have hV₁closed : ∀ u ∈ V₁, ∀ w, g.Adj u w → w ∈ V₁ := by
          intro u hu w hw
          rw [hV₁] at hu ⊢
          rcases Finset.mem_union.mp hu with h1 | h1
          · exact Finset.mem_union_left _ (hcl u h1 w hw)
          · have hru := (hiff u).mp (List.mem_toFinset.mp h1)
            have hrw : g.Reach v w := Relation.ReflTransGen.tail hru hw
            exact Finset.mem_union_right _ (List.mem_toFinset.mpr ((hiff w).mpr hrw))
        obtain ⟨new', V'', h1, h2, h3, h4, h5, h6⟩ := ih V₁ (comps ++ [Δc]) comps' hV₁closed h
        have hΔV₁ : ∀ x ∈ Δc, x ∈ V₁ := by
          intro x hx
          rw [hV₁]
          exact Finset.mem_union_right _ (List.mem_toFinset.mpr hx)
        refine ⟨Δc :: new', V'', ?_, ?_, ?_, ?_, ?_, h6⟩
        · rw [h1, List.append_assoc]
          rfl
        · intro c hc
          rcases List.mem_cons.mp hc with rfl | hc
          · exact ⟨hnd, hnotV, v, List.mem_cons_self v vs, hiff⟩
          · obtain ⟨hnd', hnot', r, hr, hiff'⟩ := h2 c hc
            refine ⟨hnd', ?_, r, List.mem_cons_of_mem _ hr, hiff'⟩
            intro u hu huV
            exact hnot' u hu (by
              rw [hV₁]
              exact Finset.mem_union_left _ huV)
        · refine List.pairwise_cons.mpr ⟨?_, h3⟩
          intro c hc x hxΔ hxc
          obtain ⟨_, hnot', _⟩ := h2 c hc
          exact hnot' x hxc (hΔV₁ x hxΔ)
        · intro u
          rw [h4 u]
          constructor
          · rintro (hu | ⟨c, hc, huc⟩)
            · rw [hV₁] at hu
              rcases Finset.mem_union.mp hu with h7 | h7
              · exact Or.inl h7
              · exact Or.inr ⟨Δc, List.mem_cons_self _ _, List.mem_toFinset.mp h7⟩
            · exact Or.inr ⟨c, List.mem_cons_of_mem _ hc, huc⟩
          · rintro (hu | ⟨c, hc, huc⟩)
            · exact Or.inl (by
                rw [hV₁]
                exact Finset.mem_union_left _ hu)
            · rcases List.mem_cons.mp hc with rfl | hc
              · exact Or.inl (hΔV₁ u huc)
              · exact Or.inr ⟨c, hc, huc⟩
        · intro x hx
          rcases List.mem_cons.mp hx with rfl | hx
          · exact (h4 x).mpr (Or.inl (hΔV₁ x ((hiff x).mpr Relation.ReflTransGen.refl)))
          · exact h5 x hx

lemma countP_eq_one_of_disjoint {l : List (List Vertex)} {x : Vertex}
    (hp : List.Pairwise (fun c₁ c₂ => ∀ y, y ∈ c₁ → y ∉ c₂) l)
    (hx : ∃ c ∈ l, x ∈ c) :
    l.countP (fun c => decide (x ∈ c)) = 1 := by
  induction l with
  | nil => simp at hx
  | cons c cs ih =>
    rw [List.countP_cons]
    obtain ⟨hhead, htail⟩ := List.pairwise_cons.mp hp
    by_cases hxc : x ∈ c
    · have h0 : cs.countP (fun c => decide (x ∈ c)) = 0 := by
        rw [List.countP_eq_zero]
        intro c' hc'
        simp only [decide_eq_true_eq]
        exact hhead c' hc' x hxc
      simp [hxc, h0]
    · obtain ⟨c', hc', hxc'⟩ := hx
      rcases List.mem_cons.mp hc' with rfl | hc'
      · exact absurd hxc' hxc
      · rw [ih htail ⟨c', hc', hxc'⟩]
        simp [hxc]

/-! ### Runs over graphs with the same adjacency relation agree -/

lemma reach_congr {g g' : Graph} (hAdj : ∀ u w, g.Adj u w ↔ g'.Adj u w) (v w : Vertex) :
    g.Reach v w ↔ g'.Reach v w := by
  have h : g.Adj = g'.Adj := by
    funext u w
    exact propext (hAdj u w)
  unfold Graph.Reach
  rw [h]

lemma dfsGo_congr {g g' : Graph} (hwf : g.wf) (hwf' : g'.wf)
    (hAdj : ∀ u w, g.Adj u w ↔ g'.Adj u w) :
    ∀ vs V comps comps₂,
      (∀ u ∈ V, ∀ w, g.Adj u w → w ∈ V) →
      List.Forall₂ (fun c c' => ∀ x, x ∈ c ↔ x ∈ c') comps comps₂ →
      ∃ out out₂, dfsGo g vs V comps = some out ∧ dfsGo g' vs V comps₂ = some out₂ ∧
        List.Forall₂ (fun c c' => ∀ x, x ∈ c ↔ x ∈ c') out out₂ := by
  intro vs
  induction vs with
  | nil =>
    intro V comps comps₂ hcl hf
    exact ⟨comps, comps₂, rfl, rfl, hf⟩
  | cons v vs ih =>
    intro V comps comps₂ hcl hf
    by_cases hv : v ∈ V
    · obtain ⟨out, out₂, h1, h2, h3⟩ := ih V comps comps₂ hcl hf
      refine ⟨out, out₂, ?_, ?_, h3⟩
      · simp only [dfsGo]
        rw [if_pos hv]
        exact h1
      · simp only [dfsGo]
        rw [if_pos hv]
        exact h2
    · obtain ⟨⟨V₁, Δ⟩, hE⟩ := Option.isSome_iff_exists.mp (explore_isSome hwf v V [] hv)
      obtain ⟨⟨V₂, Δ'⟩, hE'⟩ := Option.isSome_iff_exists.mp (explore_isSome hwf' v V [] hv)
      have hcl' : ∀ u ∈ V, ∀ w, g'.Adj u w → w ∈ V :=
        fun u hu w hw => hcl u hu w ((hAdj u w).mpr hw)
      obtain ⟨Δ₀, hC, hnd, hnotV, hV₁, hiff⟩ := explore_class hv hcl hE
      obtain ⟨Δ₀', hC', hnd', hnotV', hV₂, hiff'⟩ := explore_class hv hcl' hE'
      have hΔeq : Δ = Δ₀ := by simpa using hC
      have hΔeq' : Δ' = Δ₀' := by simpa using hC'
      subst hΔeq hΔeq'
      have hmem : ∀ x, x ∈ Δ ↔ x ∈ Δ' := by
        intro x
        rw [hiff x, hiff' x]
        exact reach_congr hAdj v x
      have hVeq : V₂ = V₁ := by
        rw [hV₁, hV₂]
        have hts : Δ'.toFinset = Δ.toFinset := by
          ext x
          simp [hmem x]
        rw [hts]
      subst hVeq
      have hV₂closed : ∀ u ∈ V₂, ∀ w, g.Adj u w → w ∈ V₂ := by
        intro u hu w hw
        rw [hV₁] at hu ⊢
        rcases Finset.mem_union.mp hu with h1 | h1
        · exact Finset.mem_union_left _ (hcl u h1 w hw)
        · have hru := (hiff u).mp (List.mem_toFinset.mp h1)
          exact Finset.mem_union_right _
            (List.mem_toFinset.mpr ((hiff w).mpr (Relation.ReflTransGen.tail hru hw)))
      have hsing : List.Forall₂ (fun c c' => ∀ x, x ∈ c ↔ x ∈ c') [Δ] [Δ'] :=
        List.Forall₂.cons (fun x => hmem x) List.Forall₂.nil
      obtain ⟨out, out₂, hh1, hh2, hh3⟩ :=
        ih V₂ (comps ++ [Δ]) (comps₂ ++ [Δ']) hV₂closed (List.rel_append hf hsing)
      refine ⟨out, out₂, ?_, ?_, hh3⟩
      · simp only [dfsGo]
        rw [if_neg hv, hE]
        exact hh1
      · simp only [dfsGo]
        rw [if_neg hv, hE']
        exact hh2

/-! ### The claims -/

/-- C1: for every graph in which every edge endpoint belongs to the vertex
set, `connected_components` returns a partition of the vertex set: the union
of the components is the vertex set, the components are pairwise disjoint,
none is empty, and every vertex appears in exactly one component. -/
theorem claim_c1_components_partition {g : Graph} (hwf : g.wf)
    {comps : List (List Vertex)} (hcc : g.connected_components = some comps) :
    (∀ x, (∃ c ∈ comps, x ∈ c) ↔ x ∈ g.vertices) ∧
    List.Pairwise (fun c₁ c₂ => ∀ x, x ∈ c₁ → x ∉ c₂) comps ∧
    (∀ c ∈ comps, c ≠ []) ∧
    (∀ x ∈ g.vertices, comps.countP (fun c => decide (x ∈ c)) = 1) := by
  unfold Graph.connected_components Graph.depth_first_search at hcc
  obtain ⟨new, V'', h1, h2, h3, h4, h5, h6⟩ :=
    dfsGo_spec g.vertices ∅ [] comps (by simp) hcc
  obtain rfl : comps = new := by simpa using h1
  have hcov : ∀ x ∈ g.vertices, ∃ c ∈ comps, x ∈ c := by
    intro x hx
    rcases (h4 x).mp (h5 x hx) with h | h
    · simp at h
    · exact h
  refine ⟨?_, h3, ?_, ?_⟩
  · intro x
    constructor
    · rintro ⟨c, hc, hxc⟩
      obtain ⟨hnd, hnot, r, hr, hiff⟩ := h2 c hc
      exact reach_mem hwf hr ((hiff x).mp hxc)
    · exact hcov x
  · intro c hc
    obtain ⟨hnd, hnot, r, hr, hiff⟩ := h2 c hc
    intro hnil
    have hrc := (hiff r).mpr Relation.ReflTransGen.refl
    rw [hnil] at hrc
    cases hrc
  · intro x hx
    exact countP_eq_one_of_disjoint h3 (hcov x hx)

/-- C1 witness: the partition property evaluated on the four-vertex graph
with edges (1,2) and (2,3). -/
theorem claim_c1_witness :
    ((Graph.mk [1, 2, 3, 4] [(1, 2), (2, 3)]).wf ∧
      (Graph.mk [1, 2, 3, 4] [(1, 2), (2, 3)]).connected_components =
        some [[1, 2, 3], [4]]) ∧
    ((∀ x, (∃ c ∈ [[1, 2, 3], [4]], x ∈ c) ↔
        x ∈ (Graph.mk [1, 2, 3, 4] [(1, 2), (2, 3)]).vertices) ∧
      List.Pairwise (fun c₁ c₂ => ∀ x, x ∈ c₁ → x ∉ c₂) [[1, 2, 3], [4]] ∧
      (∀ c ∈ [[1, 2, 3], [4]], c ≠ []) ∧
      (∀ x ∈ (Graph.mk [1, 2, 3, 4] [(1, 2), (2, 3)]).vertices,
        List.countP (fun c => decide (x ∈ c)) [[1, 2, 3], [4]] = 1)) :=
  ⟨⟨by decide, by decide⟩, claim_c1_components_partition (by decide) (by decide)⟩

/-- C2: for a well-formed graph, exploring from any declared vertex `v` with a
fresh visited set succeeds, and both the visited set and the discovery list
contain exactly the vertices reachable from `v` along undirected edges. -/
theorem claim_c2_explore_component {g : Graph} (hwf : g.wf) {v : Vertex}
    (_hv : v ∈ g.vertices) :
    ∃ V' C', g.explore v (∅, []) = some (V', C') ∧
      (∀ u, u ∈ V' ↔ g.Reach v u) ∧ (∀ u, u ∈ C' ↔ g.Reach v u) := by
  obtain ⟨⟨V', C'⟩, hE⟩ :=
    Option.isSome_iff_exists.mp (explore_isSome hwf v ∅ [] (Finset.not_mem_empty v))
  obtain ⟨Δ, hC, hnd, hnotV, hV, hiff⟩ :=
    explore_class (Finset.not_mem_empty v) (by simp) hE
  refine ⟨V', C', hE, ?_, ?_⟩
  · intro u
    rw [hV]
    simp [hiff u]
  · intro u
    rw [hC]
    simp [hiff u]

/-- C2 witness: exploring from vertex 1 of the four-vertex graph. -/
theorem claim_c2_witness :
    ((Graph.mk [1, 2, 3, 4] [(1, 2), (2, 3)]).wf ∧
      1 ∈ (Graph.mk [1, 2, 3, 4] [(1, 2), (2, 3)]).vertices) ∧
    (∃ V' C', (Graph.mk [1, 2, 3, 4] [(1, 2), (2, 3)]).explore 1 (∅, []) = some (V', C') ∧
      (∀ u, u ∈ V' ↔ (Graph.mk [1, 2, 3, 4] [(1, 2), (2, 3)]).Reach 1 u) ∧
      (∀ u, u ∈ C' ↔ (Graph.mk [1, 2, 3, 4] [(1, 2), (2, 3)]).Reach 1 u)) :=
  ⟨⟨by decide, by decide⟩, claim_c2_explore_component (by decide) (by decide)⟩

/-- C3: for a well-formed graph, if `v` lies in component `i` and `w` in
component `j` of the result of `connected_components`, then
`is_reachable v w` is `true` when `i = j` and `false` when `i ≠ j`. -/
theorem claim_c3_components_reachability {g : Graph} (hwf : g.wf)
    {comps : List (List Vertex)} (hcc : g.connected_components = some comps)
    {i j : Nat} (hi : i < comps.length) (hj : j < comps.length)
    {v w : Vertex} (hv : v ∈ comps[i]) (hw : w ∈ comps[j]) :
    g.is_reachable v w = some (decide (i = j)) := by
  unfold Graph.connected_components Graph.depth_first_search at hcc
  obtain ⟨new, V'', h1, h2, h3, h4, h5, h6⟩ :=
    dfsGo_spec g.vertices ∅ [] comps (by simp) hcc
  obtain rfl : comps = new := by simpa using h1
  obtain ⟨_, _, ri, hri, hiffi⟩ := h2 comps[i] (comps.getElem_mem hi)
  obtain ⟨_, _, rj, hrj, hiffj⟩ := h2 comps[j] (comps.getElem_mem hj)
  obtain ⟨b, hb, hbiff⟩ := is_reachable_spec hwf v w
  rw [hb]
  congr 1
  by_cases hij : i = j
  · subst hij
    have hvw : g.Reach v w :=
      Relation.ReflTransGen.trans (reach_symm ((hiffi v).mp hv)) ((hiffi w).mp hw)
    rw [hbiff.mpr hvw]
    simp
  · have hnr : ¬ g.Reach v w := by
      intro hr
      have hwi : w ∈ comps[i] :=
        (hiffi w).mpr (Relation.ReflTransGen.trans ((hiffi v).mp hv) hr)
      rcases Nat.lt_or_ge i j with hlt | hge
      · exact (List.pairwise_iff_getElem.mp h3) i j hi hj hlt w hwi hw
      · have hlt' : j < i := by omega
        exact (List.pairwise_iff_getElem.mp h3) j i hj hi hlt' w hw hwi
    have hb' : b = false := by
      cases b
      · rfl
      · exact absurd (hbiff.mp rfl) hnr
    rw [hb']
    simp [hij]

/-- C3 witness: vertices 1 (component 0) and 4 (component 1) of the
four-vertex graph are not mutually reachable. -/
theorem claim_c3_witness :
    ((Graph.mk [1, 2, 3, 4] [(1, 2), (2, 3)]).wf ∧
      (Graph.mk [1, 2, 3, 4] [(1, 2), (2, 3)]).connected_components =
        some [[1, 2, 3], [4]] ∧
      (0 : Nat) < 2 ∧ (1 : Nat) < 2 ∧ (1 : Vertex) ∈ [1, 2, 3] ∧ (4 : Vertex) ∈ [4]) ∧
    (Graph.mk [1, 2, 3, 4] [(1, 2), (2, 3)]).is_reachable 1 4 =
      some (decide ((0 : Nat) = 1)) :=
  ⟨⟨by decide, by decide, by decide, by decide, by decide, by decide⟩,
    @claim_c3_components_reachability (Graph.mk [1, 2, 3, 4] [(1, 2), (2, 3)]) (by decide)
      [[1, 2, 3], [4]] (by decide) 0 1 (by decide) (by decide) 1 4 (by decide) (by decide)⟩

/-- C4 counterexample: the claim asserts the loaded vertex set is the full
range `[1, V]` for every header, but at `V = u32::MAX = 4294967295` the Rust
`v + 1` of `(1..v+1)` overflows (wrapping the range to empty in release
builds; debug builds panic), so vertex 1, although in `[1, V]`, is not in the
loaded vertex set. -/
theorem claim_c4_counterexample :
    (load (fun _ => (4294967295, 0))).vertices = [] ∧
    (1 : Vertex) ≤ 4294967295 ∧
    (1 : Vertex) ∉ (load (fun _ => (4294967295, 0))).vertices :=
  ⟨rfl, by decide, by decide⟩

/-- C4 (amended): provided the header count `V` does not make `v + 1`
overflow `u32` (i.e. `V < u32::MAX`), `load` builds the vertex set as the
contiguous range `[1, V]`; the edge list is always exactly the `E` pairs read
from positions 1..E of the stream, in order; on the stream
`V=3 E=2, (1,2), (2,3)` the loaded graph has the single connected component
{1, 2, 3}. -/
theorem claim_c4_load (reader : Nat → Nat × Nat) :
    ((reader 0).1 + 1 < u32size →
      ∀ x, x ∈ (load reader).vertices ↔ 1 ≤ x ∧ x ≤ (reader 0).1) ∧
    (load reader).edges.length = (reader 0).2 ∧
    (∀ i, i < (reader 0).2 → (load reader).edges[i]? = some (reader (i + 1))) ∧
    (reader 0 = (3, 2) → reader 1 = (1, 2) → reader 2 = (2, 3) →
      (load reader).connected_components = some [[1, 2, 3]]) := by
  refine ⟨?_, ?_, ?_, ?_⟩
  · intro hov x
    simp only [load, List.mem_range'_1, Nat.mod_eq_of_lt hov, Nat.add_sub_cancel,
      Nat.lt_one_add_iff]
  · unfold load
    simp
  · intro i hi
    unfold load
    simp [List.getElem?_map, List.getElem?_range, hi]
  · intro h0 h1 h2
    have hv : (load reader).vertices = [1, 2, 3] := by
      unfold load
      rw [h0]
      rfl
    have he : (load reader).edges = [(1, 2), (2, 3)] := by
      unfold load
      rw [h0]
      show [reader 1, reader 2] = [(1, 2), (2, 3)]
      rw [h1, h2]
    have hgr : load reader = Graph.mk [1, 2, 3] [(1, 2), (2, 3)] := by
      rw [← hv, ← he]
    rw [hgr]
    decide

/-- C4 witness: the load round-trip on the concrete stream
`(3,2), (1,2), (2,3)`, including the non-overflowing vertex-range clause at
vertex 2. -/
theorem claim_c4_witness :
    (load (fun n => if n = 0 then (3, 2) else if n = 1 then (1, 2)
      else (2, 3))).connected_components = some [[1, 2, 3]] ∧
    ((2 : Vertex) ∈ (load (fun n => if n = 0 then (3, 2) else if n = 1 then (1, 2)
      else (2, 3))).vertices ↔ 1 ≤ (2 : Vertex) ∧ (2 : Vertex) ≤ 3) :=
  ⟨(claim_c4_load (fun n => if n = 0 then (3, 2) else if n = 1 then (1, 2)
      else (2, 3))).2.2.2 rfl rfl rfl,
    (claim_c4_load (fun n => if n = 0 then (3, 2) else if n = 1 then (1, 2)
      else (2, 3))).1 (by decide) 2⟩

/-- C5: for a well-formed graph, reachability is symmetric:
`is_reachable v w` and `is_reachable w v` agree for all `v`, `w`. -/
theorem claim_c5_is_reachable_symm {g : Graph} (hwf : g.wf) (v w : Vertex) :
    g.is_reachable v w = g.is_reachable w v := by
  obtain ⟨b1, h1, hb1⟩ := is_reachable_spec hwf v w
  obtain ⟨b2, h2, hb2⟩ := is_reachable_spec hwf w v
  rw [h1, h2]
  have hiff : g.Reach v w ↔ g.Reach w v := ⟨reach_symm, reach_symm⟩
  have hbb : b1 = b2 := by
    cases b1 <;> cases b2 <;> simp_all
  rw [hbb]

/-- C5 witness: symmetry evaluated between vertices 1 and 3. -/
theorem claim_c5_witness :
    (Graph.mk [1, 2, 3, 4] [(1, 2), (2, 3)]).wf ∧
    (Graph.mk [1, 2, 3, 4] [(1, 2), (2, 3)]).is_reachable 1 3 =
      (Graph.mk [1, 2, 3, 4] [(1, 2), (2, 3)]).is_reachable 3 1 :=
  ⟨by decide, claim_c5_is_reachable_symm (by decide) 1 3⟩

/-- C6: for a well-formed graph, every declared vertex reaches itself:
`is_reachable v v` is `true`. -/
theorem claim_c6_self_reachable {g : Graph} (hwf : g.wf) {v : Vertex}
    (_hv : v ∈ g.vertices) : g.is_reachable v v = some true := by
  obtain ⟨b, hb, hbiff⟩ := is_reachable_spec hwf v v
  rw [hb, hbiff.mpr Relation.ReflTransGen.refl]

/-- C6 witness: self-reachability of vertex 4. -/
theorem claim_c6_witness :
    ((Graph.mk [1, 2, 3, 4] [(1, 2), (2, 3)]).wf ∧
      4 ∈ (Graph.mk [1, 2, 3, 4] [(1, 2), (2, 3)]).vertices) ∧
    (Graph.mk [1, 2, 3, 4] [(1, 2), (2, 3)]).is_reachable 4 4 = some true :=
  ⟨⟨by decide, by decide⟩, claim_c6_self_reachable (by decide) (by decide)⟩

/-- C7: duplicate edges do not affect query results: the two-vertex graph
with the edge (1,2) stored twice has the single component {1,2}, and in
general a well-formed graph and its copy with duplicate edges removed give
the same `is_reachable` answers and componentwise-equal memberships from
`connected_components`. -/
theorem claim_c7_duplicate_edges {g : Graph} (hwf : g.wf) :
    (Graph.mk [1, 2] [(1, 2), (1, 2)]).connected_components = some [[1, 2]] ∧
    (∀ v w, g.is_reachable v w =
      (Graph.mk g.vertices g.edges.dedup).is_reachable v w) ∧
    ∃ comps comps',
      g.connected_components = some comps ∧
      (Graph.mk g.vertices g.edges.dedup).connected_components = some comps' ∧
      List.Forall₂ (fun c c' => ∀ x, x ∈ c ↔ x ∈ c') comps comps' := by
  have hAdj : ∀ u w, g.Adj u w ↔ (Graph.mk g.vertices g.edges.dedup).Adj u w := by
    intro u w
    unfold Graph.Adj
    simp
  have hwf' : (Graph.mk g.vertices g.edges.dedup).wf := by
    intro e he
    exact hwf e (List.mem_dedup.mp he)
  refine ⟨by decide, ?_, ?_⟩
  · intro v w
    obtain ⟨b1, h1, hb1⟩ := is_reachable_spec hwf v w
    obtain ⟨b2, h2, hb2⟩ := is_reachable_spec hwf' v w
    rw [h1, h2]
    have hiff := reach_congr hAdj v w
    have hbb : b1 = b2 := by
      cases b1 <;> cases b2 <;> simp_all
    rw [hbb]
  · obtain ⟨out, out₂, ho1, ho2, ho3⟩ :=
      dfsGo_congr hwf hwf' hAdj g.vertices ∅ [] [] (by simp) List.Forall₂.nil
    exact ⟨out, out₂, ho1, ho2, ho3⟩

/-- C7 witness: the duplicate-edge graph itself. -/
theorem claim_c7_witness :
    (Graph.mk [1, 2] [(1, 2), (1, 2)]).wf ∧
    ((Graph.mk [1, 2] [(1, 2), (1, 2)]).connected_components = some [[1, 2]] ∧
      (∀ v w, (Graph.mk [1, 2] [(1, 2), (1, 2)]).is_reachable v w =
        (Graph.mk (Graph.mk [1, 2] [(1, 2), (1, 2)]).vertices
          (Graph.mk [1, 2] [(1, 2), (1, 2)]).edges.dedup).is_reachable v w) ∧
      ∃ comps comps',
        (Graph.mk [1, 2] [(1, 2), (1, 2)]).connected_components = some comps ∧
        (Graph.mk (Graph.mk [1, 2] [(1, 2), (1, 2)]).vertices
          (Graph.mk [1, 2] [(1, 2), (1, 2)]).edges.dedup).connected_components =
            some comps' ∧
        List.Forall₂ (fun c c' => ∀ x, x ∈ c ↔ x ∈ c') comps comps') :=
  ⟨by decide, claim_c7_duplicate_edges (by decide)⟩

/-- C8: for a well-formed graph, both public queries are total: they always
return a result (no panic, no fuel exhaustion). -/
theorem claim_c8_queries_total {g : Graph} (hwf : g.wf) :
    (g.connected_components).isSome ∧
    ∀ v ∈ g.vertices, ∀ w, (g.is_reachable v w).isSome := by
  constructor
  · unfold Graph.connected_components Graph.depth_first_search
    exact dfsGo_isSome hwf g.vertices ∅ []
  · intro v hv w
    unfold Graph.is_reachable
    obtain ⟨⟨V', C'⟩, hE⟩ :=
      Option.isSome_iff_exists.mp (explore_isSome hwf v ∅ [] (Finset.not_mem_empty v))
    rw [hE]
    rfl

/-- C8 witness: totality evaluated on the four-vertex graph. -/
theorem claim_c8_witness :
    (Graph.mk [1, 2, 3, 4] [(1, 2), (2, 3)]).wf ∧
    (((Graph.mk [1, 2, 3, 4] [(1, 2), (2, 3)]).connected_components).isSome ∧
      ∀ v ∈ (Graph.mk [1, 2, 3, 4] [(1, 2), (2, 3)]).vertices, ∀ w,
        ((Graph.mk [1, 2, 3, 4] [(1, 2), (2, 3)]).is_reachable v w).isSome) :=
  ⟨by decide, claim_c8_queries_total (by decide)⟩

/-- C9: for a well-formed graph and an origin `v` absent from the vertex set,
`is_reachable v w` still returns a result, and it is `true` exactly when
`w = v`: `explore` marks the origin visited before the (failing) adjacency
lookup, so the visited set is `{v}`. -/
theorem claim_c9_absent_origin {g : Graph} (hwf : g.wf) {v : Vertex}
    (hv : v ∉ g.vertices) (w : Vertex) :
    g.is_reachable v w = some (decide (w = v)) := by
  obtain ⟨b, hb, hbiff⟩ := is_reachable_spec hwf v w
  rw [hb]
  have hiso : ∀ x, ¬ g.Adj v x := by
    intro x hx
    rcases hx with he | he
    · exact hv (hwf _ he).1
    · exact hv (hwf _ he).2
  have hrw := reach_iff_eq_of_isolated hiso w
  congr 1
  cases b <;> cases hD : decide (w = v) <;> simp_all

/-- C9 witness: origin 7 is not a vertex of the four-vertex graph. -/
theorem claim_c9_witness :
    ((Graph.mk [1, 2, 3, 4] [(1, 2), (2, 3)]).wf ∧
      7 ∉ (Graph.mk [1, 2, 3, 4] [(1, 2), (2, 3)]).vertices) ∧
    ((Graph.mk [1, 2, 3, 4] [(1, 2), (2, 3)]).is_reachable 7 1 =
        some (decide ((1 : Vertex) = 7)) ∧
      (Graph.mk [1, 2, 3, 4] [(1, 2), (2, 3)]).is_reachable 7 7 =
        some (decide ((7 : Vertex) = 7))) :=
  ⟨⟨by decide, by decide⟩,
    ⟨claim_c9_absent_origin (by decide) (by decide) 1,
      claim_c9_absent_origin (by decide) (by decide) 7⟩⟩

/-- C10 counterexample: the claim says every graph with an edge endpoint
outside the vertex set panics in `connected_components`, but with an empty
vertex set the vertex loop never runs, `adjacencies` is never built, and the
query returns the empty component list. -/
theorem claim_c10_counterexample :
    (1, 2) ∈ (Graph.mk [] [(1, 2)]).edges ∧
    (1 : Vertex) ∉ (Graph.mk [] [(1, 2)]).vertices ∧
    (Graph.mk [] [(1, 2)]).connected_components = some [] := by
  refine ⟨by decide, by decide, by decide⟩

/-- C10 (amended): for a graph with an edge endpoint outside the vertex set,
`is_reachable` always panics at the adjacency `unwrap`, and
`connected_components` panics provided the vertex set is nonempty (with an
empty vertex set it returns the empty component list without ever deriving
adjacencies). -/
theorem claim_c10_amended {g : Graph} (hbad : ¬ g.wf) :
    (∀ v w, g.is_reachable v w = none) ∧
    (g.vertices ≠ [] → g.connected_components = none) := by
  have hA : g.adjacencies = none := adjacencies_eq_none_of_not_wf hbad
  constructor
  · intro v w
    unfold Graph.is_reachable Graph.explore
    rw [hA]
  · intro hne
    unfold Graph.connected_components Graph.depth_first_search
    cases hvs : g.vertices with
    | nil => exact absurd hvs hne
    | cons v vs =>
      simp [dfsGo, Graph.explore, hA]

/-- C10 witness: a graph with one declared vertex and a dangling edge: both
queries panic. -/
theorem claim_c10_witness :
    (¬ (Graph.mk [3] [(1, 2)]).wf ∧ (Graph.mk [3] [(1, 2)]).vertices ≠ []) ∧
    ((Graph.mk [3] [(1, 2)]).is_reachable 1 2 = none ∧
      (Graph.mk [3] [(1, 2)]).connected_components = none) :=
  ⟨⟨by decide, by decide⟩,
    ⟨(claim_c10_amended (by decide)).1 1 2, (claim_c10_amended (by decide)).2 (by decide)⟩⟩

end GraphRs
